import Mathlib

/-!
Shallow embedding of the compression toolkit (bitfile + LZSS codec from
src/PFAC/lzssx.c, Huffman builder from src/unnamed/part_000), together with
theorems settling the claims about its specification.

Files are modelled as byte lists (a byte is a `Nat` below 256); the C
`unsigned char` truncations are kept as `% 256`, `>>` on unsigned values as
`>>>` (division by a power of two), `<<` followed by an `unsigned char`
store as `<<< _ % 256`, and `|`/`&` as `|||`/`&&&` on `Nat`.
-/

/-- Modelled from the spec: lzlocal.h is not under src/.  The spec fixes
`WINDOW_SIZE = 4096`. -/
def WINDOW_SIZE : Nat := 4096

/-- Modelled from the spec: lzlocal.h is not under src/.  The spec fixes
`MAX_CODED = 18`. -/
def MAX_CODED : Nat := 18

/-- Modelled from the spec: lzlocal.h is not under src/.  The spec fixes
`MAX_UNCODED = 2`. -/
def MAX_UNCODED : Nat := 2

/-- Modelled from the spec: `OFFSET_BITS = 12`. -/
def OFFSET_BITS : Nat := 12

/-- Modelled from the spec: `LENGTH_BITS = 4`. -/
def LENGTH_BITS : Nat := 4

/-- Modelled from the spec: the UNCODED flag bit is 1. -/
def UNCODED : Nat := 1

/-- Modelled from the spec: the ENCODED flag bit is 0. -/
def ENCODED : Nat := 0

/-- Modelled from the spec: lzlocal.h is not under src/; the spec states that
both cursors advance modulo their buffer sizes, so `Wrap` is the modulus. -/
def Wrap (value limit : Nat) : Nat := value % limit

/-- The C constant `EOF`. -/
def EOF : Int := -1

/-- State of a bit file opened for writing (`bit_file_t`, write/append mode):
the bytes already written to the underlying `FILE`, plus the accumulator
`bitBuffer` and the number `bitCount` of valid buffered bits.  The underlying
file never fails in this model. -/
structure BitWriter where
  out : List Nat
  bitBuffer : Nat
  bitCount : Nat
deriving DecidableEq

/-- BitFilePutBit (lzssx.c lines 543-574): increment `bitCount`, shift the
buffer left by one (an `unsigned char`, hence `% 256`), OR in 1 when the
argument is nonzero, and emit the byte once 8 bits have accumulated. -/
def BitFilePutBit (c : Nat) (st : BitWriter) : BitWriter :=
  if st.bitCount + 1 = 8 then
    { out := st.out ++ [((st.bitBuffer <<< 1) % 256) ||| (if c ≠ 0 then 1 else 0)],
      bitBuffer := 0, bitCount := 0 }
  else
    { st with bitBuffer := ((st.bitBuffer <<< 1) % 256) ||| (if c ≠ 0 then 1 else 0),
              bitCount := st.bitCount + 1 }

/-- BitFilePutChar (lzssx.c lines 461-491).  With an empty buffer the byte is
written directly (`fputc` stores `(unsigned char)c` and returns it).
Otherwise the written byte is `((unsigned char)c >> bitCount) |
(bitBuffer << (8 - bitCount))` truncated to a byte, the raw `c` is stored as
the new buffer and `bitCount` is unchanged. -/
def BitFilePutChar (c : Nat) (st : BitWriter) : Nat × BitWriter :=
  if st.bitCount = 0 then (c % 256, { st with out := st.out ++ [c % 256] })
  else
    ((((c % 256) >>> st.bitCount) ||| (st.bitBuffer <<< (8 - st.bitCount))) % 256,
     { st with
        out := st.out ++ [(((c % 256) >>> st.bitCount) ||| (st.bitBuffer <<< (8 - st.bitCount))) % 256],
        bitBuffer := c % 256 })

/-- The trailing-bit loop shared by BitFilePutBitsLE/BE (lzssx.c lines
961-972 and 1029-1040): repeatedly write the top bit of the `unsigned char`
`tmp` and shift it left. -/
def putTailBits : Nat → Nat → BitWriter → BitWriter
  | 0, _, st => st
  | r + 1, t, st => putTailBits r ((t <<< 1) % 256) (BitFilePutBit (t &&& 128) st)

/-- The whole-byte loop of BitFilePutBitsLE (lzssx.c lines 942-953): write
`bytes[off]`, `bytes[off+1]`, ... through BitFilePutChar. -/
def putCharsLE (bytes : List Nat) : Nat → Nat → BitWriter → BitWriter
  | 0, _, st => st
  | n + 1, off, st => putCharsLE bytes n (off + 1) (BitFilePutChar (bytes.getD off 0) st).2

/-- The whole-byte loop of BitFilePutBitsBE (lzssx.c lines 1010-1021):
offsets walk downward from `size - 1`. -/
def putCharsBE (bytes : List Nat) : Nat → Nat → BitWriter → BitWriter
  | 0, _, st => st
  | n + 1, off, st => putCharsBE bytes n (off - 1) (BitFilePutChar (bytes.getD off 0) st).2

/-- BitFilePutBitsLE (lzssx.c lines 930-976).  `bytes` is the memory at the
`bits` pointer.  The `size` argument is accepted and ignored, exactly as in
the source (`(void)size`); there is no `count ≤ size*8` check, so with
`count > size*8` the function reads past the object and still transfers.
Returns `count` (writes never fail in this model). -/
def BitFilePutBitsLE (bytes : List Nat) (count size : Nat) (st : BitWriter) : Int × BitWriter :=
  let _ := size
  let st1 := putCharsLE bytes (count / 8) 0 st
  if count % 8 = 0 then ((count : Int), st1)
  else ((count : Int), putTailBits (count % 8) (((bytes.getD (count / 8) 0) <<< (8 - count % 8)) % 256) st1)

/-- BitFilePutBitsBE (lzssx.c lines 993-1044): refuses with EOF when
`count > size*8`, leaving the stream untouched; otherwise writes whole bytes
from offset `size-1` downward and then the remaining bits. -/
def BitFilePutBitsBE (bytes : List Nat) (count size : Nat) (st : BitWriter) : Int × BitWriter :=
  if count > size * 8 then (EOF, st)
  else
    let st1 := putCharsBE bytes (count / 8) (size - 1) st
    if count % 8 = 0 then ((count : Int), st1)
    else ((count : Int),
      putTailBits (count % 8) (((bytes.getD (size - 1 - count / 8) 0) <<< (8 - count % 8)) % 256) st1)

/-- The little-endian memory bytes of a C `unsigned int` value. -/
def uintLEBytes (v : Nat) : List Nat :=
  [v % 256, v / 2 ^ 8 % 256, v / 2 ^ 16 % 256, v / 2 ^ 24 % 256]

/-- BitFilePutBitsNum on a little-endian host (the function pointer bound at
lzssx.c lines 114-117 dispatches to BitFilePutBitsLE) applied to an
`unsigned int`, as called by EncodeLZSS.  On a big-endian host
BitFilePutBitsBE emits the same bit sequence for these arguments. -/
def BitFilePutBitsNumLE (v count : Nat) (st : BitWriter) : BitWriter :=
  (BitFilePutBitsLE (uintLEBytes v) count 4 st).2

/-- The flush performed by BitFileClose and BitFileToFILE for write/append
modes (lzssx.c lines 262-270 and 304-312): when bits are pending, emit one
final byte `bitBuffer << (8 - bitCount)` (an `unsigned char`). -/
def flushOut (st : BitWriter) : List Nat :=
  if st.bitCount ≠ 0 then st.out ++ [((st.bitBuffer <<< (8 - st.bitCount)) % 256)] else st.out

/-- BitFileClose (lzssx.c lines 253-284) for a write-mode stream: EOF on a
null handle; otherwise flush the residual bits and return `fclose`'s 0
together with the bytes on disk. -/
def BitFileClose : Option BitWriter → Int × List Nat
  | none => (EOF, [])
  | some st => (0, flushOut st)

/-- BitFileToFILE (lzssx.c lines 295-326) for a write-mode stream: flush the
residual bits and surrender the underlying bytes. -/
def BitFileToFILE (st : BitWriter) : List Nat := flushOut st

/-- Writing a list of bits one at a time through BitFilePutBit. -/
def putBitSeq (bs : List Nat) (st : BitWriter) : BitWriter :=
  bs.foldl (fun s b => BitFilePutBit b s) st

/-- State of a bit file opened for reading: the remaining input bytes, the
most recently fetched byte and how many of its low-order reads remain
(`bitCount` high-order bits are still unconsumed). -/
structure BitReader where
  inp : List Nat
  bitBuffer : Nat
  bitCount : Nat
deriving DecidableEq

/-- BitFileGetBit (lzssx.c lines 503-531): refill the buffer from the file
when it is empty (EOF when the file is exhausted), then serve the highest
unconsumed bit.  On EOF the stream is unchanged. -/
def BitFileGetBit (st : BitReader) : Option Nat × BitReader :=
  if st.bitCount = 0 then
    match st.inp with
    | [] => (none, st)
    | b :: rest => (some ((b >>> 7) &&& 1), { inp := rest, bitBuffer := b, bitCount := 7 })
  else
    (some ((st.bitBuffer >>> (st.bitCount - 1)) &&& 1), { st with bitCount := st.bitCount - 1 })

/-- BitFileGetChar (lzssx.c lines 418-450): `fgetc` first (EOF if the file
is exhausted, without touching the buffer); with an empty bit buffer the
fresh byte is returned as is, otherwise the returned byte is assembled from
the buffered bits and the high bits of the fresh byte, which becomes the new
buffer; `bitCount` is unchanged. -/
def BitFileGetChar (st : BitReader) : Option Nat × BitReader :=
  match st.inp with
  | [] => (none, st)
  | b :: rest =>
    if st.bitCount = 0 then (some b, { st with inp := rest })
    else
      (some (((b >>> st.bitCount) ||| (st.bitBuffer <<< (8 - st.bitCount))) % 256),
       { inp := rest, bitBuffer := b, bitCount := st.bitCount })

/-- The whole-byte loop of BitFileGetBitsLE/BE (lzssx.c lines 772-785 and
842-855), accumulating the value of the integer being filled: the byte read
at step `i` has significance `256^i` (ascending memory offsets on a
little-endian host, descending offsets from `size-1` on a big-endian host
give the same significance).  On EOF the partially consumed stream is
returned, as in the source. -/
def getCharsNum : Nat → Nat → Nat → BitReader → Option (Nat × Nat) × BitReader
  | 0, i, acc, st => (some (acc, i), st)
  | n + 1, i, acc, st =>
    match BitFileGetChar st with
    | (none, st1) => (none, st1)
    | (some b, st1) => getCharsNum n (i + 1) (acc + b * 256 ^ i) st1

/-- The trailing-bit loop of BitFileGetBitsLE/BE (lzssx.c lines 787-804 and
857-874): shift the destination byte left and OR in each bit.  The byte
starts from the caller's memory, which DecodeLZSS zeroes before the call. -/
def getBitsTail : Nat → Nat → BitReader → Option Nat × BitReader
  | 0, b, st => (some b, st)
  | r + 1, b, st =>
    match BitFileGetBit st with
    | (none, st1) => (none, st1)
    | (some bit, st1) => getBitsTail r (((b <<< 1) % 256) ||| (bit &&& 1)) st1

/-- BitFileGetBitsLE (lzssx.c lines 761-807): whole bytes then trailing
bits; no `count ≤ size*8` check (`size` is accepted and ignored, as in the
source).  The value is the little-endian integer assembled in the caller's
(zeroed) memory. -/
def BitFileGetBitsLE (count size : Nat) (st : BitReader) : Option Nat × BitReader :=
  let _ := size
  match getCharsNum (count / 8) 0 0 st with
  | (none, st1) => (none, st1)
  | (some (acc, i), st1) =>
    if count % 8 = 0 then (some acc, st1)
    else
      match getBitsTail (count % 8) 0 st1 with
      | (none, st2) => (none, st2)
      | (some b, st2) => (some (acc + b * 256 ^ i), st2)

/-- BitFileGetBitsBE (lzssx.c lines 825-877): refuses with EOF when
`count > size*8`, leaving the stream untouched; otherwise reads exactly as
the LE variant, the bytes being stored from offset `size-1` downward (same
assembled value). -/
def BitFileGetBitsBE (count size : Nat) (st : BitReader) : Option Nat × BitReader :=
  if count > size * 8 then (none, st)
  else
    match getCharsNum (count / 8) 0 0 st with
    | (none, st1) => (none, st1)
    | (some (acc, i), st1) =>
      if count % 8 = 0 then (some acc, st1)
      else
        match getBitsTail (count % 8) 0 st1 with
        | (none, st2) => (none, st2)
        | (some b, st2) => (some (acc + b * 256 ^ i), st2)

/-- Pointwise update of a byte array modelled as a function. -/
def setW (w : Nat → Nat) (i v : Nat) : Nat → Nat :=
  fun j => if j = i then v else w j

/-- FindMatch of the PFAC build (src/PFAC/lzssx.c lines 1381-1446).  The
external GPU matcher's output `h_matched_result` is taken as a parameter
`matched` (one entry per scanned position); the function keeps the largest
nonzero entry as the match length and sets
`offset = windowHead - h_matched_result[i]`, an `unsigned int` subtraction,
i.e. `(windowHead + 2^32 - r) % 2^32`.  `uncodedHead` is accepted but never
used by the source body (the lookahead buffer goes to the external matcher,
which `matched` abstracts). -/
def FindMatch (windowHead uncodedHead : Nat) (matched : List Nat) : Nat × Nat :=
  let _ := uncodedHead
  matched.foldl
    (fun md r =>
      if r ≠ 0 then
        if r > md.2 then (((windowHead + 2 ^ 32) - r) % 2 ^ 32, r) else md
      else md)
    (0, 0)

/-- State of the EncodeLZSS loop: the two cyclic buffers (as functions), the
two cursors, the not-yet-fetched input bytes, the count `len` of live
lookahead bytes, and the output bit stream. -/
structure EncState where
  window : Nat → Nat
  lookahead : Nat → Nat
  windowHead : Nat
  uncodedHead : Nat
  input : List Nat
  len : Nat
  bw : BitWriter

/-- The two advance loops of EncodeLZSS (lzssx.c lines 1612-1632), fused:
each of the `n` steps copies the departing lookahead byte into the window
(ReplaceChar), then either refills the lookahead slot from the input or, once
the input is exhausted, decrements `len`; both heads advance via Wrap. -/
def advanceLoop : Nat → EncState → EncState
  | 0, st => st
  | n + 1, st =>
    match st.input with
    | c :: rest =>
      advanceLoop n
        { st with
          window := setW st.window st.windowHead (st.lookahead st.uncodedHead)
          lookahead := setW st.lookahead st.uncodedHead c
          windowHead := Wrap (st.windowHead + 1) WINDOW_SIZE
          uncodedHead := Wrap (st.uncodedHead + 1) MAX_CODED
          input := rest }
    | [] =>
      advanceLoop n
        { st with
          window := setW st.window st.windowHead (st.lookahead st.uncodedHead)
          windowHead := Wrap (st.windowHead + 1) WINDOW_SIZE
          uncodedHead := Wrap (st.uncodedHead + 1) MAX_CODED
          len := st.len - 1 }

/-- One iteration of the EncodeLZSS while loop (lzssx.c lines 1577-1636),
given the current FindMatch result `md = (offset, length)`: clamp the length
to `len`, emit either UNCODED + literal (treating the length as 1) or
ENCODED + offset + adjusted length, then run the advance loops. -/
def encodeStep (md : Nat × Nat) (st : EncState) : EncState :=
  if (if md.2 > st.len then st.len else md.2) ≤ MAX_UNCODED then
    advanceLoop 1
      { st with
          bw := (BitFilePutChar (st.lookahead st.uncodedHead) (BitFilePutBit UNCODED st.bw)).2 }
  else
    advanceLoop (if md.2 > st.len then st.len else md.2)
      { st with
          bw := BitFilePutBitsNumLE
            ((if md.2 > st.len then st.len else md.2) - (MAX_UNCODED + 1)) LENGTH_BITS
            (BitFilePutBitsNumLE md.1 OFFSET_BITS (BitFilePutBit ENCODED st.bw)) }

/-- The EncodeLZSS while loop (lzssx.c lines 1577-1636).  `md` is the
FindMatch result computed before the iteration and `mfs` the results of the
remaining FindMatch calls (the external PFAC matcher makes FindMatch an
oracle; one result per call).  The fuel always exceeds the iteration count:
every iteration removes at least one byte from `input.length + len`, so
`EncodeLZSS` passes `inp.length + 1`. -/
def encodeLoopF : Nat → List (Nat × Nat) → Nat × Nat → EncState → BitWriter
  | 0, _, _, st => st.bw
  | fuel + 1, mfs, md, st =>
    if st.len = 0 then st.bw
    else encodeLoopF fuel mfs.tail (mfs.headD (0, 0)) (encodeStep md st)

/-- EncodeLZSS (lzssx.c lines 1515-1642).  The window is pre-filled with
spaces (0x20) and the lookahead (a zero-initialised global) with the first
`min MAX_CODED |inp|` input bytes; an empty input returns immediately with
no output (the bit file is not flushed).  `mfs` lists the successive
FindMatch results.  Returns the bytes surrendered by BitFileToFILE. -/
def EncodeLZSS (inp : List Nat) (mfs : List (Nat × Nat)) : List Nat :=
  let len := min MAX_CODED inp.length
  if len = 0 then []
  else
    BitFileToFILE
      (encodeLoopF (inp.length + 1) mfs.tail (mfs.headD (0, 0))
        { window := fun _ => 32
          lookahead := fun j => inp.getD j 0
          windowHead := 0
          uncodedHead := 0
          input := inp.drop len
          len := len
          bw := { out := [], bitBuffer := 0, bitCount := 0 } })

/-- State of the DecodeLZSS loop: the window (as a function), the cursor
`nextChar`, the input bit stream and the bytes written so far. -/
structure DecState where
  window : Nat → Nat
  nextChar : Nat
  br : BitReader
  out : List Nat

/-- The staging write-back of DecodeLZSS (lzssx.c lines 1744-1748): copy the
bytes already emitted for a back-reference from the staging buffer into the
window at `nextChar`, `nextChar+1`, ... -/
def writeWindow (w : Nat → Nat) (nc : Nat) (chars : List Nat) : Nat → Nat :=
  (List.range chars.length).foldl
    (fun wa i => setW wa (Wrap (nc + i) WINDOW_SIZE) (chars.getD i 0)) w

/-- The DecodeLZSS while loop (lzssx.c lines 1689-1752).  Any EOF (on the
flag bit, the literal byte, the offset field or the length field) breaks out
of the loop, leaving window, `nextChar` and the output untouched by the
truncated record.  An UNCODED record emits its literal and stores it at
`nextChar`; an ENCODED record reads offset and raw length via the host's
GetBitsNum (both hosts assemble the same value; the LE variant is used
here), adds `MAX_UNCODED + 1`, emits the `length` bytes found at
`offset, offset+1, ...` in the window (staged through the lookahead buffer)
and then copies them to `nextChar, nextChar+1, ...`.  The fuel always
exceeds the iteration count, since every iteration consumes at least one
input bit. -/
def decodeLoopF : Nat → DecState → DecState
  | 0, st => st
  | fuel + 1, st =>
    match BitFileGetBit st.br with
    | (none, _) => st
    | (some flag, br1) =>
      if flag = UNCODED then
        match BitFileGetChar br1 with
        | (none, br2) => { st with br := br2 }
        | (some c, br2) =>
          decodeLoopF fuel
            { window := setW st.window st.nextChar c
              nextChar := Wrap (st.nextChar + 1) WINDOW_SIZE
              br := br2
              out := st.out ++ [c] }
      else
        match BitFileGetBitsLE OFFSET_BITS 4 br1 with
        | (none, br2) => { st with br := br2 }
        | (some off, br2) =>
          match BitFileGetBitsLE LENGTH_BITS 4 br2 with
          | (none, br3) => { st with br := br3 }
          | (some lenRaw, br3) =>
            let length := lenRaw + MAX_UNCODED + 1
            let chars := (List.range length).map (fun i => st.window (Wrap (off + i) WINDOW_SIZE))
            decodeLoopF fuel
              { window := writeWindow st.window st.nextChar chars
                nextChar := Wrap (st.nextChar + length) WINDOW_SIZE
                br := br3
                out := st.out ++ chars }

/-- DecodeLZSS (lzssx.c lines 1657-1758): space-filled window, `nextChar =
0`, then the decode loop; EOF is the normal exit and the status is 0. -/
def DecodeLZSS (inp : List Nat) : Int × List Nat :=
  (0,
   (decodeLoopF (8 * inp.length + 1)
     { window := fun _ => 32
       nextChar := 0
       br := { inp := inp, bitBuffer := 0, bitCount := 0 }
       out := [] }).out)

namespace Huffman

/-- The Huffman tree node (src/unnamed/part_000, `struct node`): a frequency
`value`, a symbol `ch` (meaningful only at leaves, where both sons are
null), and two sons at internal nodes. -/
inductive Node where
  | leaf (value : Nat) (ch : Nat) : Node
  | node (value : Nat) (lson rson : Node) : Node
deriving DecidableEq

/-- The `value` field of a node. -/
def Node.value : Node → Nat
  | .leaf v _ => v
  | .node v _ _ => v

/-- The scan of `push` (part_000 lines 41-44): starting from the head,
advance `q` while `q->next` exists and the incoming value exceeds
`q->next`'s value; returns the number of advances (the index of the entry
`q` stops at). -/
def scanStop (v : Nat) : List Node → Nat
  | [] => 0
  | [_] => 0
  | _ :: y :: ys => if v ≤ y.value then 0 else scanStop v (y :: ys) + 1

/-- push (part_000 lines 30-51).  An empty queue (or the fresh queue whose
head entry holds no node) just receives the node.  Otherwise the new entry
is spliced after the entry the scan stopped at; when the scan stopped at the
head and the incoming value is strictly below the head's value, the code
first redirects `head` to the new entry and then still runs the splice, so
the reachable list becomes the new node followed by the OLD TAIL: the old
front node is lost (it survives only on a dangling cycle). -/
def push (n : Node) (q : List Node) : List Node :=
  match q with
  | [] => [n]
  | x :: xs =>
    let i := scanStop n.value (x :: xs)
    if i = 0 ∧ n.value < x.value then n :: xs
    else (x :: xs).take (i + 1) ++ n :: (x :: xs).drop (i + 1)

/-- The merge loop of huffmanTree (part_000 lines 193-203): while the queue
is not a singleton, pop two nodes and push their join.  The fuel always
exceeds the iteration count (each iteration shrinks the queue). -/
def mergeLoop : Nat → List Node → List Node
  | 0, q => q
  | _ + 1, [] => []
  | _ + 1, [n] => [n]
  | fuel + 1, n1 :: n2 :: rest =>
    mergeLoop fuel (push (Node.node (n1.value + n2.value) n1 n2) rest)

/-- contains (part_000 lines 127-133): the index of the first occurrence of
`ch` in the array, or -1. -/
def contains (ch : Nat) : List Nat → Int
  | [] => -1
  | x :: xs =>
    if ch = x then 0
    else
      let r := contains ch xs
      if r = -1 then -1 else r + 1

/-- Increment the count stored at an index of the frequency table. -/
def bumpAt : List (Nat × Nat) → Nat → List (Nat × Nat)
  | [], _ => []
  | e :: es, 0 => (e.1, e.2 + 1) :: es
  | e :: es, i + 1 => e :: bumpAt es i

/-- One step of count (part_000 lines 115-124): probe the `chars` array with
`contains`; a position satisfying `pos > 0` bumps `reps[pos]`; otherwise —
including when the symbol sits at position 0! — a fresh entry with count 1
is appended (`chars[uniq] = arr[i]; reps[uniq]++; uniq++` on the
zero-initialised globals). -/
def countStep (st : List (Nat × Nat)) (c : Nat) : List (Nat × Nat) :=
  let pos := contains c (st.map Prod.fst)
  if pos > 0 then bumpAt st pos.toNat else st ++ [(c, 1)]

/-- count (part_000 lines 113-125) over the whole input; the table pairs
`chars[i]` with `reps[i]` for `i < uniq`. -/
def count (input : List Nat) : List (Nat × Nat) := input.foldl countStep []

/-- The leaf-construction loop of huffmanTree (part_000 lines 183-189): one
leaf per frequency-table entry, pushed in order onto the fresh queue. -/
def buildQueue (entries : List (Nat × Nat)) : List Node :=
  entries.foldl (fun q e => push (Node.leaf e.2 e.1) q) []

/-- huffmanTree (part_000 lines 176-208): count, build the queue, merge
down to one node and return it; `none` for an empty input (where the source
would pass an uninitialised pointer to printTree). -/
def huffmanTree (input : List Nat) : Option Node :=
  let q := buildQueue (count input)
  match mergeLoop q.length q with
  | [r] => some r
  | _ => none

/-- printTree (part_000 lines 212-228) as the code table it prints: depth
first, appending 0 on a left descent and 1 on a right descent, recording
the accumulated string at each leaf.  Trees produced by the merge loop have
both sons at every internal node, which is the shape printTree's
bookkeeping handles. -/
def codes : Node → List Bool → List (Nat × List Bool)
  | .leaf _ c, pre => [(c, pre)]
  | .node _ l r, pre => codes l (pre ++ [false]) ++ codes r (pre ++ [true])

/-- The code table of the whole pipeline. -/
def huffmanCodes (input : List Nat) : Option (List (Nat × List Bool)) :=
  (huffmanTree input).map (fun r => codes r [])

end Huffman

/-- The `k` low-order bits of a value, most significant first (the order in
which the bit file transmits them). -/
def bitsOfNat : Nat → Nat → List Bool
  | 0, _ => []
  | k + 1, v => v.testBit k :: bitsOfNat k v

/-- The eight bits of a byte, MSB first. -/
def byteBits (v : Nat) : List Bool := bitsOfNat 8 v

/-- Every bit committed to a write stream so far: the bytes on disk, MSB
first within each byte, followed by the `bitCount` buffered bits. -/
def wbits (st : BitWriter) : List Bool :=
  (st.out.map byteBits).flatten ++ bitsOfNat st.bitCount st.bitBuffer

/-- C1: the claimed LZSS round-trip `DecodeLZSS (EncodeLZSS s) = s` fails on
the shipped code.  On input "AAAA" (bytes 65,65,65,65), when the external
PFAC matcher reports a match of length 3 on the first FindMatch call (result
array `[3]`, window head 0) and nothing afterwards, FindMatch returns the
bogus offset `windowHead - 3 = 2^32 - 3`; the encoder emits a back-reference
to window position 4093, which still holds the space fill, so the decoder
reproduces three spaces: the round trip yields 32,32,32,65 instead of
65,65,65,65. -/
theorem C1_roundtrip_fails :
    FindMatch 0 0 [3] = (4294967293, 3) ∧
    EncodeLZSS [65, 65, 65, 65] [FindMatch 0 0 [3], FindMatch 3 3 [0]] = [126, 248, 80, 64] ∧
    DecodeLZSS (EncodeLZSS [65, 65, 65, 65] [FindMatch 0 0 [3], FindMatch 3 3 [0]]) =
      (0, [32, 32, 32, 65]) ∧
    ([32, 32, 32, 65] : List Nat) ≠ [65, 65, 65, 65] := by
  refine ⟨by decide, by decide, by decide, by decide⟩

/-- C2: the FindMatch contract is violated by the shipped PFAC FindMatch.
With window head 0 and the external matcher reporting a single match of
length 3, the returned offset is `0 - 3` as an `unsigned int`, i.e.
4294967293, far outside `[0, WINDOW_SIZE)`; and a reported length of 25 is
returned unclamped, exceeding `MAX_CODED = 18`.  (The function's own doc
comment promises the sliding-window index where the match starts.) -/
theorem C2_findmatch_contract_violated :
    FindMatch 0 0 [3] = (4294967293, 3) ∧
    ¬ (FindMatch 0 0 [3]).1 < WINDOW_SIZE ∧
    (FindMatch 0 0 [25]).2 = 25 ∧
    ¬ (FindMatch 0 0 [25]).2 ≤ MAX_CODED := by
  refine ⟨by decide, by decide, by decide, by decide⟩

/-- C3: the priority-queue push loses the old front node whenever the
incoming value is strictly below the front's value.  Pushing a node of value
3 onto the singleton queue holding a node of value 5 yields the singleton
queue of the new node: the node of value 5 is no longer in the queue, so the
claimed "contains every previously held node plus the new one" fails. -/
theorem C3_push_drops_front :
    Huffman.push (Huffman.Node.leaf 3 0) [Huffman.Node.leaf 5 0] = [Huffman.Node.leaf 3 0] ∧
    Huffman.Node.leaf 5 0 ∉ Huffman.push (Huffman.Node.leaf 3 0) [Huffman.Node.leaf 5 0] := by
  refine ⟨by decide, by decide⟩

/-- C4: the frequency pass duplicates the first symbol instead of counting
it: `contains` reports position 0 for the symbol stored first, the caller
tests `pos > 0`, so every occurrence of that symbol appends a fresh entry of
count 1.  On input "AA" (65,65) the pass produces two entries (65,1),(65,1)
instead of the claimed single entry (65,2). -/
theorem C4_count_duplicates_first_symbol :
    Huffman.count [65, 65] = [(65, 1), (65, 1)] ∧
    Huffman.count [65, 65] ≠ [(65, 2)] := by
  refine ⟨by decide, by decide⟩

/-- C8: for the single-occurrence single-symbol input "A" the tree is a bare
leaf and printTree records the empty bit string for it (it prints "0 bits"),
so the claimed codeword of length at least 1 is not assigned. -/
theorem C8_single_symbol_empty_code :
    Huffman.huffmanCodes [65] = some [(65, [])] ∧
    ((Huffman.huffmanCodes [65]).getD []).all (fun p => decide (1 ≤ p.2.length)) = false := by
  refine ⟨by decide, by decide⟩

/-- C5 counterexample: on a little-endian host the numeric bit transfers do
NOT refuse `count > size*8`.  BitFilePutBitsLE with `count = 9`, `size = 1`
(9 > 8) happily writes 9 bits (reading past the 1-byte object), returning 9
and changing the stream, and BitFileGetBitsLE likewise reads 9 bits and
returns a value instead of EOF. -/
theorem C5_le_variants_do_not_refuse :
    BitFilePutBitsLE [171, 205] 9 1 { out := [], bitBuffer := 0, bitCount := 0 } =
      (9, { out := [171], bitBuffer := 1, bitCount := 1 }) ∧
    (9 : Int) ≠ EOF ∧
    ({ out := [171], bitBuffer := 1, bitCount := 1 } : BitWriter) ≠
      { out := [], bitBuffer := 0, bitCount := 0 } ∧
    (BitFileGetBitsLE 9 1 { inp := [171, 205], bitBuffer := 0, bitCount := 0 }).1 = some 427 := by
  refine ⟨by decide, by decide, by decide, by decide⟩

/-- C5 amended: only the big-endian numeric transfers enforce the bound:
whenever `count > size*8`, BitFilePutBitsBE returns EOF without writing
anything and BitFileGetBitsBE returns EOF without consuming anything. -/
theorem C5_be_variants_refuse (bytes : List Nat) (count size : Nat)
    (st : BitWriter) (br : BitReader) (h : count > size * 8) :
    BitFilePutBitsBE bytes count size st = (EOF, st) ∧
    BitFileGetBitsBE count size br = (none, br) := by
  constructor
  · simp [BitFilePutBitsBE, h]
  · simp [BitFileGetBitsBE, h]

/-- C5 witness: the amended statement at `count = 9`, `size = 1`. -/
theorem C5_be_variants_refuse_witness :
    BitFilePutBitsBE [171, 205] 9 1 { out := [], bitBuffer := 0, bitCount := 0 } =
      (EOF, { out := [], bitBuffer := 0, bitCount := 0 }) ∧
    BitFileGetBitsBE 9 1 { inp := [171, 205], bitBuffer := 0, bitCount := 0 } =
      (none, { inp := [171, 205], bitBuffer := 0, bitCount := 0 }) :=
  C5_be_variants_refuse [171, 205] 9 1 _ _ (by decide)

/-- C6: closing a write-mode bit stream with pending bits emits exactly one
final byte, `bitBuffer` shifted left by `8 - bitCount` (truncated to a
byte), whose spare low-order `8 - bitCount` bits are zero; closing a null
handle returns EOF; and writing the bits 1,0,1,1,0,0,0,1,1 one at a time
and closing produces exactly the bytes 0xB1 (177) and 0x80 (128). -/
theorem C6_close_flush (st : BitWriter) (h : st.bitCount ≠ 0) (h8 : st.bitCount < 8) :
    BitFileClose (some st) =
      (0, st.out ++ [(st.bitBuffer <<< (8 - st.bitCount)) % 256]) ∧
    ((st.bitBuffer <<< (8 - st.bitCount)) % 256) % 2 ^ (8 - st.bitCount) = 0 ∧
    BitFileClose none = (EOF, []) ∧
    BitFileClose (some (putBitSeq [1, 0, 1, 1, 0, 0, 0, 1, 1]
        { out := [], bitBuffer := 0, bitCount := 0 })) = (0, [177, 128]) := by
  refine ⟨?_, ?_, rfl, by decide⟩
  · simp [BitFileClose, flushOut, h]
  · have h256 : (256 : Nat) = 2 ^ 8 := by norm_num
    rw [Nat.shiftLeft_eq, h256, Nat.mod_mod_of_dvd _ (pow_dvd_pow 2 (by omega)),
      Nat.mul_mod_left]

/-- C6 witness: the flush statement at the stream holding the three bits 101
(bitBuffer 5, bitCount 3): the final byte is 0xA0, its five spare bits
zero. -/
theorem C6_close_flush_witness :
    BitFileClose (some { out := [], bitBuffer := 5, bitCount := 3 }) = (0, [160]) ∧
    (160 : Nat) % 2 ^ 5 = 0 ∧
    BitFileClose none = (EOF, []) ∧
    BitFileClose (some (putBitSeq [1, 0, 1, 1, 0, 0, 0, 1, 1]
        { out := [], bitBuffer := 0, bitCount := 0 })) = (0, [177, 128]) :=
  C6_close_flush { out := [], bitBuffer := 5, bitCount := 3 } (by decide) (by decide)

/-- C9: whenever the compressed stream ends right after a flag bit or inside
the offset or length field of an ENCODED record (an EOF from the literal
read, the offset read or the length read), the decode loop emits no output
for the truncated record and leaves window and `nextChar` untouched, and
DecodeLZSS's status is 0 — EOF is the normal loop exit. -/
theorem C9_decoder_truncated_record (st : DecState) (fuel : Nat)
    (h : (∃ br1, BitFileGetBit st.br = (some UNCODED, br1) ∧ (BitFileGetChar br1).1 = none) ∨
         (∃ br1, BitFileGetBit st.br = (some ENCODED, br1) ∧
            (BitFileGetBitsLE OFFSET_BITS 4 br1).1 = none) ∨
         (∃ br1 o br2, BitFileGetBit st.br = (some ENCODED, br1) ∧
            BitFileGetBitsLE OFFSET_BITS 4 br1 = (some o, br2) ∧
            (BitFileGetBitsLE LENGTH_BITS 4 br2).1 = none)) :
    (decodeLoopF (fuel + 1) st).out = st.out ∧
    (decodeLoopF (fuel + 1) st).window = st.window ∧
    (decodeLoopF (fuel + 1) st).nextChar = st.nextChar ∧
    (DecodeLZSS st.br.inp).1 = 0 := by
  refine ⟨?_, ?_, ?_, rfl⟩ <;>
  · rcases h with ⟨br1, hflag, hnone⟩ | ⟨br1, hflag, hnone⟩ | ⟨br1, o, br2, hflag, hoff, hnone⟩
    · rcases e : BitFileGetChar br1 with ⟨v, br2a⟩
      rw [e] at hnone; simp only at hnone; subst hnone
      simp [decodeLoopF, hflag, e]
    · rcases e : BitFileGetBitsLE OFFSET_BITS 4 br1 with ⟨v, br2a⟩
      rw [e] at hnone; simp only at hnone; subst hnone
      simp [decodeLoopF, hflag, e, ENCODED, UNCODED]
    · rcases e : BitFileGetBitsLE LENGTH_BITS 4 br2 with ⟨v, br3a⟩
      rw [e] at hnone; simp only at hnone; subst hnone
      simp [decodeLoopF, hflag, hoff, e, ENCODED, UNCODED]

/-- C9 witness: a stream holding the single bit 1 (an UNCODED flag with
nothing after it): the loop stops with output, window and cursor
untouched. -/
theorem C9_decoder_truncated_record_witness :
    (decodeLoopF 1
        { window := fun _ => 32, nextChar := 0,
          br := { inp := [], bitBuffer := 1, bitCount := 1 }, out := [] }).out = [] ∧
    (decodeLoopF 1
        { window := fun _ => 32, nextChar := 0,
          br := { inp := [], bitBuffer := 1, bitCount := 1 }, out := [] }).window =
      (fun _ => 32) ∧
    (decodeLoopF 1
        { window := fun _ => 32, nextChar := 0,
          br := { inp := [], bitBuffer := 1, bitCount := 1 }, out := [] }).nextChar = 0 ∧
    (DecodeLZSS []).1 = 0 :=
  C9_decoder_truncated_record
    { window := fun _ => 32, nextChar := 0,
      br := { inp := [], bitBuffer := 1, bitCount := 1 }, out := [] } 0
    (Or.inl ⟨{ inp := [], bitBuffer := 1, bitCount := 0 }, by decide, by decide⟩)

/-- Helper: `bitsOfNat k` only depends on the value modulo `2^k`. -/
theorem bitsOfNat_congr (k : Nat) {v w : Nat} (h : v % 2 ^ k = w % 2 ^ k) :
    bitsOfNat k v = bitsOfNat k w := by
  induction k generalizing v w with
  | zero => rfl
  | succ k ih =>
    have hbit : v.testBit k = w.testBit k := by
      have hv := Nat.testBit_mod_two_pow v (k + 1) k
      have hw := Nat.testBit_mod_two_pow w (k + 1) k
      simp only [Nat.lt_succ_self, decide_True, Bool.true_and] at hv hw
      rw [← hv, ← hw, h]
    have hmod : v % 2 ^ k = w % 2 ^ k := by
      have dv : (2 : Nat) ^ k ∣ 2 ^ (k + 1) := pow_dvd_pow 2 (Nat.le_succ k)
      rw [← Nat.mod_mod_of_dvd v dv, ← Nat.mod_mod_of_dvd w dv, h]
    simp [bitsOfNat, hbit, ih hmod]

/-- Helper: splitting the bit string of a value at a bit position. -/
theorem bitsOfNat_add (a b v : Nat) :
    bitsOfNat (a + b) v = bitsOfNat a (v >>> b) ++ bitsOfNat b v := by
  induction a with
  | zero => simp [bitsOfNat, Nat.zero_add]
  | succ a ih =>
    have : a + 1 + b = (a + b) + 1 := by omega
    rw [this]
    simp only [bitsOfNat, ih, Nat.testBit_shiftRight, List.cons_append]
    rw [Nat.add_comm b a]

/-- Helper: reducing a bitwise OR modulo a power of two. -/
theorem lor_mod_two_pow (a b n : Nat) :
    (a ||| b) % 2 ^ n = (a % 2 ^ n) ||| (b % 2 ^ n) := by
  apply Nat.eq_of_testBit_eq
  intro i
  simp only [Nat.testBit_mod_two_pow, Nat.testBit_lor]
  by_cases h : i < n <;> simp [h]

/-- Helper: the bits of `2^m * x + y` for `y < 2^m` are those of `x` above
those of `y`. -/
theorem testBit_two_pow_mul_add {m x y : Nat} (hy : y < 2 ^ m) (i : Nat) :
    (2 ^ m * x + y).testBit i = if i < m then y.testBit i else x.testBit (i - m) := by
  rcases Nat.lt_or_ge i m with h | h
  · rw [if_pos h, Nat.testBit_to_div_mod, Nat.testBit_to_div_mod]
    have e1 : 2 ^ m * x = 2 ^ i * (2 ^ (m - i) * x) := by
      rw [← Nat.mul_assoc, ← pow_add]
      congr 2
      omega
    rw [e1, Nat.add_comm, Nat.add_mul_div_left _ _ (Nat.pos_pow_of_pos i (by omega))]
    have e2 : 2 ^ (m - i) * x = 2 * (2 ^ (m - i - 1) * x) := by
      rw [← Nat.mul_assoc, ← pow_succ']
      congr 2
      omega
    rw [e2, Nat.add_mul_mod_self_left]
  · rw [if_neg (Nat.not_lt.mpr h), Nat.testBit_to_div_mod, Nat.testBit_to_div_mod]
    have e1 : (2 ^ m * x + y) / 2 ^ i = x / 2 ^ (i - m) := by
      have e2 : (2 : Nat) ^ i = 2 ^ m * 2 ^ (i - m) := by
        rw [← pow_add]
        congr 1
        omega
      rw [e2, ← Nat.div_div_eq_div_mul]
      congr 1
      rw [Nat.add_comm, Nat.add_mul_div_left _ _ (Nat.pos_pow_of_pos m (by omega)),
        Nat.div_eq_of_lt hy, Nat.zero_add]
    rw [e1]

/-- Helper: ORing disjoint bit ranges is addition. -/
theorem lor_eq_add_of_lt {m x y : Nat} (hy : y < 2 ^ m) :
    (2 ^ m * x) ||| y = 2 ^ m * x + y := by
  apply Nat.eq_of_testBit_eq
  intro i
  rw [Nat.testBit_lor, testBit_two_pow_mul_add hy]
  have hx : (2 ^ m * x).testBit i = if i < m then false else x.testBit (i - m) := by
    have h0 := testBit_two_pow_mul_add (x := x) (show 0 < 2 ^ m from Nat.pos_pow_of_pos m (by omega)) i
    simpa using h0
  rcases Nat.lt_or_ge i m with h | h
  · simp [hx, if_pos h]
  · have hyf : y.testBit i = false :=
      Nat.testBit_eq_false_of_lt (lt_of_lt_of_le hy (pow_le_pow_right₀ (by omega) h))
    simp [hx, if_neg (Nat.not_lt.mpr h), hyf]

/-- Helper: the byte BitFilePutChar assembles, in arithmetic form: the valid
buffered bits in the high positions followed by the high `8 - k` bits of
`c`. -/
theorem putChar_tmp (c buf k : Nat) (hc : c < 256) (hk : k < 8) :
    ((c >>> k) ||| (buf <<< (8 - k))) % 256 =
      buf % 2 ^ k * 2 ^ (8 - k) + c / 2 ^ k := by
  have h256 : (256 : Nat) = 2 ^ 8 := by norm_num
  have hsplit : (2 : Nat) ^ 8 = 2 ^ k * 2 ^ (8 - k) := by
    rw [← pow_add]
    congr 1
    omega
  have hdlt : c / 2 ^ k < 2 ^ (8 - k) := by
    apply Nat.div_lt_of_lt_mul
    calc c < 256 := hc
    _ = 2 ^ k * 2 ^ (8 - k) := by rw [h256, hsplit]
  have hdlt8 : c / 2 ^ k < 2 ^ 8 := lt_of_le_of_lt (Nat.div_le_self _ _) (by omega)
  rw [Nat.shiftRight_eq_div_pow, Nat.shiftLeft_eq, h256, lor_mod_two_pow,
    Nat.mod_eq_of_lt hdlt8, hsplit, Nat.mul_mod_mul_right, Nat.lor_comm,
    Nat.mul_comm (buf % 2 ^ k) (2 ^ (8 - k)),
    lor_eq_add_of_lt (m := 8 - k) (x := buf % 2 ^ k) hdlt]

/-- Helper: BitFilePutBit keeps the buffered-bit count below 8. -/
theorem bitCount_putBit (c : Nat) (st : BitWriter) (h : st.bitCount < 8) :
    (BitFilePutBit c st).bitCount < 8 := by
  unfold BitFilePutBit
  by_cases hc : st.bitCount + 1 = 8
  · simp [hc]
  · simp only [hc, if_false]
    omega

/-- Helper: BitFilePutChar preserves the buffered-bit count. -/
theorem bitCount_putChar (c : Nat) (st : BitWriter) :
    (BitFilePutChar c st).2.bitCount = st.bitCount := by
  unfold BitFilePutChar
  by_cases hc : st.bitCount = 0 <;> simp [hc]

/-- Helper: putTailBits keeps the buffered-bit count below 8. -/
theorem bitCount_putTailBits (r t : Nat) (st : BitWriter) (h : st.bitCount < 8) :
    (putTailBits r t st).bitCount < 8 := by
  induction r generalizing t st with
  | zero => exact h
  | succ r ih => exact ih _ _ (bitCount_putBit _ _ h)

/-- Helper: putCharsLE preserves the buffered-bit count. -/
theorem bitCount_putCharsLE (bytes : List Nat) (n off : Nat) (st : BitWriter) :
    (putCharsLE bytes n off st).bitCount = st.bitCount := by
  induction n generalizing off st with
  | zero => rfl
  | succ n ih => rw [putCharsLE, ih, bitCount_putChar]

/-- Helper: BitFilePutBitsNumLE keeps the buffered-bit count below 8. -/
theorem bitCount_putBitsNumLE (v count : Nat) (st : BitWriter) (h : st.bitCount < 8) :
    (BitFilePutBitsNumLE v count st).bitCount < 8 := by
  unfold BitFilePutBitsNumLE BitFilePutBitsLE
  by_cases hr : count % 8 = 0 <;> simp only [hr, if_pos, if_neg, ite_true, ite_false]
  · simpa [bitCount_putCharsLE] using h
  · exact bitCount_putTailBits _ _ _ (by simpa [bitCount_putCharsLE] using h)

/-- Helper: the empty bit string. -/
theorem bitsOfNat_zero (v : Nat) : bitsOfNat 0 v = [] := rfl

/-- Helper: BitFilePutBit appends exactly one bit to the committed bit
string: true when the argument is nonzero. -/
theorem wbits_putBit (c : Nat) (st : BitWriter) (h : st.bitCount < 8) :
    wbits (BitFilePutBit c st) = wbits st ++ [decide (c ≠ 0)] := by
  have key : ∀ k buf, k < 8 →
      bitsOfNat (k + 1) (((buf <<< 1) % 256) ||| (if c ≠ 0 then 1 else 0)) =
        bitsOfNat k buf ++ [decide (c ≠ 0)] := by
    intro k buf hk
    have e1 : ((buf <<< 1) % 256) = 2 * (buf % 128) := by
      rw [Nat.shiftLeft_eq, pow_one, Nat.mul_comm,
        show (256 : Nat) = 2 * 128 by norm_num, Nat.mul_mod_mul_left]
    have hb : (if c ≠ 0 then 1 else 0) < 2 ^ 1 := by split <;> norm_num
    have e2 : (2 * (buf % 128)) ||| (if c ≠ 0 then 1 else 0) =
        2 * (buf % 128) + (if c ≠ 0 then 1 else 0) := by
      have h2 := lor_eq_add_of_lt (m := 1) (x := buf % 128) hb
      simpa [pow_one] using h2
    rw [e1, e2, bitsOfNat_add k 1]
    congr 1
    · apply bitsOfNat_congr
      have ed : (2 * (buf % 128) + (if c ≠ 0 then 1 else 0)) >>> 1 = buf % 128 := by
        rw [Nat.shiftRight_eq_div_pow, pow_one]
        by_cases hc : c = 0
        · simp [hc]
        · simp only [hc, ne_eq, not_false_eq_true, if_true]
          omega
      rw [ed]
      have h128 : (128 : Nat) = 2 ^ 7 := by norm_num
      rw [h128, Nat.mod_mod_of_dvd buf (pow_dvd_pow 2 (by omega))]
    · simp only [bitsOfNat, Nat.testBit_zero]
      by_cases hc : c = 0 <;>
        simp [hc, Nat.add_mul_mod_self_left, Nat.mul_add_mod]
  by_cases hcnt : st.bitCount + 1 = 8
  · have hk7 : st.bitCount = 7 := by omega
    unfold BitFilePutBit
    rw [if_pos hcnt]
    simp only [wbits, List.map_append, List.flatten_append, List.map_cons, List.map_nil,
      List.flatten_cons, List.flatten_nil, bitsOfNat_zero, List.append_nil, byteBits]
    rw [List.append_assoc, hk7]
    have hkey := key 7 st.bitBuffer (by omega)
    rw [show (7 : Nat) + 1 = 8 from rfl] at hkey
    rw [hkey]
  · unfold BitFilePutBit
    rw [if_neg hcnt]
    simp only [wbits]
    rw [List.append_assoc]
    exact congrArg _ (key st.bitCount st.bitBuffer h)

/-- Helper: splitting the bit string of a value at a position. -/
theorem bitsOfNat_split (k m v : Nat) (h : k ≤ m) :
    bitsOfNat m v = bitsOfNat k (v >>> (m - k)) ++ bitsOfNat (m - k) v := by
  have e : m = k + (m - k) := by omega
  calc bitsOfNat m v = bitsOfNat (k + (m - k)) v := by rw [← e]
  _ = bitsOfNat k (v >>> (m - k)) ++ bitsOfNat (m - k) v := bitsOfNat_add _ _ _

/-- Helper: BitFilePutChar appends exactly the eight bits of the written
byte (MSB first) to the committed bit string. -/
theorem wbits_putChar (c : Nat) (st : BitWriter) (h : st.bitCount < 8) :
    wbits (BitFilePutChar c st).2 = wbits st ++ byteBits (c % 256) := by
  by_cases hk : st.bitCount = 0
  · unfold BitFilePutChar
    rw [if_pos hk]
    simp [wbits, hk, bitsOfNat_zero]
  · unfold BitFilePutChar
    rw [if_neg hk]
    have hc256 : c % 256 < 256 := Nat.mod_lt _ (by norm_num)
    have htmp := putChar_tmp (c % 256) st.bitBuffer st.bitCount hc256 h
    have hd : c % 256 / 2 ^ st.bitCount < 2 ^ (8 - st.bitCount) := by
      apply Nat.div_lt_of_lt_mul
      calc c % 256 < 256 := hc256
      _ = 2 ^ st.bitCount * 2 ^ (8 - st.bitCount) := by
        rw [← pow_add, show st.bitCount + (8 - st.bitCount) = 8 by omega]
        norm_num
    have hcore :
        byteBits ((((c % 256) >>> st.bitCount) ||| (st.bitBuffer <<< (8 - st.bitCount))) % 256)
            ++ bitsOfNat st.bitCount (c % 256)
          = bitsOfNat st.bitCount st.bitBuffer ++ byteBits (c % 256) := by
      rw [byteBits, byteBits, htmp,
        bitsOfNat_split st.bitCount 8 _ (by omega),
        bitsOfNat_split (8 - st.bitCount) 8 (c % 256) (by omega),
        show 8 - (8 - st.bitCount) = st.bitCount by omega]
      have e1 : (st.bitBuffer % 2 ^ st.bitCount * 2 ^ (8 - st.bitCount) +
          c % 256 / 2 ^ st.bitCount) >>> (8 - st.bitCount) = st.bitBuffer % 2 ^ st.bitCount := by
        rw [Nat.shiftRight_eq_div_pow,
          Nat.mul_comm (st.bitBuffer % 2 ^ st.bitCount) (2 ^ (8 - st.bitCount)),
          Nat.mul_add_div (Nat.pos_pow_of_pos _ (by omega)), Nat.div_eq_of_lt hd,
          Nat.add_zero]
      have e2 : bitsOfNat st.bitCount (st.bitBuffer % 2 ^ st.bitCount) =
          bitsOfNat st.bitCount st.bitBuffer :=
        bitsOfNat_congr _ (by rw [Nat.mod_mod_of_dvd _ dvd_rfl])
      have e3 : bitsOfNat (8 - st.bitCount)
            (st.bitBuffer % 2 ^ st.bitCount * 2 ^ (8 - st.bitCount) + c % 256 / 2 ^ st.bitCount)
          = bitsOfNat (8 - st.bitCount) ((c % 256) >>> st.bitCount) :=
        bitsOfNat_congr _ (by
          rw [Nat.mul_comm (st.bitBuffer % 2 ^ st.bitCount) (2 ^ (8 - st.bitCount)),
            Nat.mul_add_mod, Nat.shiftRight_eq_div_pow])
      rw [e1, e2, e3, List.append_assoc]
    simp only [wbits, List.map_append, List.flatten_append, List.map_cons, List.map_nil,
      List.flatten_cons, List.flatten_nil, List.append_nil, List.append_assoc]
    rw [hcore]

set_option maxRecDepth 4000 in
/-- Helper: the top bit of a byte as tested by `& 0x80`. -/
theorem and128_testBit : ∀ t < 256, decide (t &&& 128 ≠ 0) = t.testBit 7 := by decide

set_option maxRecDepth 4000 in
/-- Helper: shifting a byte left by one drops its top bit. -/
theorem shift_tail_step :
    ∀ r < 8, ∀ t < 256,
      (((t <<< 1) % 256) >>> (8 - r)) % 2 ^ r = (t >>> (7 - r)) % 2 ^ r := by decide

/-- Helper: putTailBits appends the `r` bits below the top `8 - r` bits of
the byte `t`, MSB first. -/
theorem wbits_putTailBits (r t : Nat) (st : BitWriter) (hr : r ≤ 8) (ht : t < 256)
    (h : st.bitCount < 8) :
    wbits (putTailBits r t st) = wbits st ++ bitsOfNat r (t >>> (8 - r)) := by
  induction r generalizing t st with
  | zero => simp [putTailBits, bitsOfNat_zero]
  | succ r ih =>
    rw [putTailBits, ih ((t <<< 1) % 256) _ (by omega) (Nat.mod_lt _ (by norm_num))
        (bitCount_putBit _ _ h),
      wbits_putBit _ _ h, List.append_assoc]
    congr 1
    have hhead : (t >>> (8 - (r + 1))).testBit r = t.testBit 7 := by
      rw [Nat.testBit_shiftRight]
      congr 1
      omega
    have htail : bitsOfNat r (((t <<< 1) % 256) >>> (8 - r)) =
        bitsOfNat r (t >>> (8 - (r + 1))) := by
      rw [bitsOfNat_congr r (shift_tail_step r (by omega) t ht)]
      congr 2
      omega
    calc [decide (t &&& 128 ≠ 0)] ++ bitsOfNat r (((t <<< 1) % 256) >>> (8 - r))
        = [(t >>> (8 - (r + 1))).testBit r] ++ bitsOfNat r (t >>> (8 - (r + 1))) := by
          rw [and128_testBit t ht, hhead, htail]
      _ = bitsOfNat (r + 1) (t >>> (8 - (r + 1))) := rfl

set_option maxRecDepth 4000 in
/-- Helper: the low nibble survives the shift-up/shift-down pair. -/
theorem nibble_shift : ∀ x < 256, (((x <<< 4) % 256) >>> 4) % 2 ^ 4 = x % 2 ^ 4 := by decide

/-- Helper: the 12-bit numeric put emits the low byte of the value, MSB
first, followed by the next four bits of the value: the wire layout of the
offset field. -/
theorem wbits_putBitsNumLE_offset (v : Nat) (st : BitWriter) (h : st.bitCount < 8) :
    wbits (BitFilePutBitsNumLE v OFFSET_BITS st) =
      wbits st ++ byteBits v ++ bitsOfNat 4 (v / 2 ^ 8) := by
  rw [show OFFSET_BITS = 12 from rfl]
  unfold BitFilePutBitsNumLE BitFilePutBitsLE uintLEBytes
  norm_num [putCharsLE]
  rw [wbits_putTailBits 4 _ _ (by norm_num) (Nat.mod_lt _ (by norm_num))
      (by rw [bitCount_putChar]; exact h),
    wbits_putChar _ _ h]
  have e1 : byteBits (v % 256 % 256) = byteBits v := by
    unfold byteBits
    apply bitsOfNat_congr
    rw [show (2 : Nat) ^ 8 = 256 from rfl, Nat.mod_mod_of_dvd _ dvd_rfl,
      Nat.mod_mod_of_dvd _ dvd_rfl]
  have e2 : bitsOfNat 4 ((((v / 256 % 256) <<< 4) % 256) >>> (8 - 4)) =
      bitsOfNat 4 (v / 256) := by
    apply bitsOfNat_congr
    show ((((v / 256 % 256) <<< 4) % 256) >>> 4) % 2 ^ 4 = (v / 256) % 2 ^ 4
    rw [nibble_shift _ (Nat.mod_lt _ (by norm_num)),
      Nat.mod_mod_of_dvd _ (by norm_num : (2 : Nat) ^ 4 ∣ 256)]
  rw [e2, List.append_assoc, e1]

/-- Helper: the 4-bit numeric put emits the low nibble of the value, MSB
first: the wire layout of the length field. -/
theorem wbits_putBitsNumLE_len (v : Nat) (st : BitWriter) (h : st.bitCount < 8) :
    wbits (BitFilePutBitsNumLE v LENGTH_BITS st) = wbits st ++ bitsOfNat 4 v := by
  rw [show LENGTH_BITS = 4 from rfl]
  unfold BitFilePutBitsNumLE BitFilePutBitsLE uintLEBytes
  norm_num [putCharsLE]
  rw [wbits_putTailBits 4 _ _ (by norm_num) (Nat.mod_lt _ (by norm_num)) h]
  congr 1
  apply bitsOfNat_congr
  show ((((v % 256) <<< 4) % 256) >>> 4) % 2 ^ 4 = v % 2 ^ 4
  rw [nibble_shift _ (Nat.mod_lt _ (by norm_num)),
    Nat.mod_mod_of_dvd _ (by norm_num : (2 : Nat) ^ 4 ∣ 256)]

/-- Helper: the advance loops never touch the output bit stream. -/
theorem advanceLoop_bw (n : Nat) (st : EncState) : (advanceLoop n st).bw = st.bw := by
  induction n generalizing st with
  | zero => rfl
  | succ n ih =>
    rw [advanceLoop]
    cases hI : st.input
    · exact ih _
    · exact ih _

/-- Helper: the advance loops move the window head forward by one position
per step, modulo WINDOW_SIZE. -/
theorem advanceLoop_windowHead (n : Nat) (st : EncState) (hn : n ≠ 0) :
    (advanceLoop n st).windowHead = (st.windowHead + n) % WINDOW_SIZE := by
  induction n generalizing st with
  | zero => exact absurd rfl hn
  | succ n ih =>
    rw [advanceLoop]
    rcases Nat.eq_zero_or_pos n with h0 | hpos
    · subst h0
      cases hI : st.input <;> simp [advanceLoop, Wrap]
    · cases hI : st.input
      all_goals
        rw [ih _ (by omega)]
        simp only [Wrap, Nat.mod_add_mod]
        congr 1
        omega

/-- Helper: the advance loops move the lookahead head forward by one
position per step, modulo MAX_CODED. -/
theorem advanceLoop_uncodedHead (n : Nat) (st : EncState) (hn : n ≠ 0) :
    (advanceLoop n st).uncodedHead = (st.uncodedHead + n) % MAX_CODED := by
  induction n generalizing st with
  | zero => exact absurd rfl hn
  | succ n ih =>
    rw [advanceLoop]
    rcases Nat.eq_zero_or_pos n with h0 | hpos
    · subst h0
      cases hI : st.input <;> simp [advanceLoop, Wrap]
    · cases hI : st.input
      all_goals
        rw [ih _ (by omega)]
        simp only [Wrap, Nat.mod_add_mod]
        congr 1
        omega

/-- C7: one iteration of the encoder loop.  The FindMatch length is first
clamped to the live lookahead length `len`.  If the clamped length is at
most MAX_UNCODED, the iteration appends the UNCODED flag bit (1) and the
eight bits of the literal `uncodedLookahead[uncodedHead]` to the output
stream, and advances both heads by exactly one position; otherwise it
appends the ENCODED flag bit (0), the twelve offset bits and the four bits
of `length - (MAX_UNCODED + 1)`, and advances both heads by exactly the
clamped length. -/
theorem C7_encoder_iteration (md : Nat × Nat) (st : EncState)
    (hbw : st.bw.bitCount < 8) (hlen : 0 < st.len) :
    (min md.2 st.len ≤ MAX_UNCODED →
      wbits (encodeStep md st).bw =
        wbits st.bw ++ true :: byteBits (st.lookahead st.uncodedHead % 256) ∧
      (encodeStep md st).windowHead = (st.windowHead + 1) % WINDOW_SIZE ∧
      (encodeStep md st).uncodedHead = (st.uncodedHead + 1) % MAX_CODED) ∧
    (MAX_UNCODED < min md.2 st.len →
      wbits (encodeStep md st).bw =
        wbits st.bw ++ false :: (byteBits md.1 ++ bitsOfNat 4 (md.1 / 256) ++
          bitsOfNat 4 (min md.2 st.len - (MAX_UNCODED + 1))) ∧
      (encodeStep md st).windowHead = (st.windowHead + min md.2 st.len) % WINDOW_SIZE ∧
      (encodeStep md st).uncodedHead = (st.uncodedHead + min md.2 st.len) % MAX_CODED) := by
  have hmin : (if md.2 > st.len then st.len else md.2) = min md.2 st.len := by
    split <;> omega
  constructor
  · intro hb
    unfold encodeStep
    rw [hmin, if_pos hb]
    refine ⟨?_, ?_, ?_⟩
    · rw [advanceLoop_bw]
      rw [wbits_putChar _ _ (bitCount_putBit _ _ hbw), wbits_putBit _ _ hbw]
      simp [UNCODED]
    · rw [advanceLoop_windowHead 1 _ one_ne_zero]
    · rw [advanceLoop_uncodedHead 1 _ one_ne_zero]
  · intro hb
    unfold encodeStep
    rw [hmin, if_neg (by omega)]
    have h1 : (BitFilePutBit ENCODED st.bw).bitCount < 8 := bitCount_putBit _ _ hbw
    have h2 : (BitFilePutBitsNumLE md.1 OFFSET_BITS (BitFilePutBit ENCODED st.bw)).bitCount < 8 :=
      bitCount_putBitsNumLE _ _ _ h1
    have hne : min md.2 st.len ≠ 0 := by omega
    refine ⟨?_, ?_, ?_⟩
    · rw [advanceLoop_bw]
      rw [wbits_putBitsNumLE_len _ _ h2, wbits_putBitsNumLE_offset _ _ h1,
        wbits_putBit _ _ hbw]
      simp [ENCODED, List.append_assoc]
    · rw [advanceLoop_windowHead _ _ hne]
    · rw [advanceLoop_uncodedHead _ _ hne]

/-- C7 witness: the encoded branch at a concrete state: FindMatch result
(4093, 5), live length 4, fresh output stream. -/
theorem C7_encoder_iteration_witness :
    (min (4093, 5).2
        ({ window := fun _ => 32, lookahead := fun _ => 65, windowHead := 0,
           uncodedHead := 0, input := [], len := 4,
           bw := { out := [], bitBuffer := 0, bitCount := 0 } } : EncState).len ≤ MAX_UNCODED →
      wbits (encodeStep (4093, 5)
          { window := fun _ => 32, lookahead := fun _ => 65, windowHead := 0,
            uncodedHead := 0, input := [], len := 4,
            bw := { out := [], bitBuffer := 0, bitCount := 0 } }).bw =
        wbits { out := [], bitBuffer := 0, bitCount := 0 } ++
          true :: byteBits (65 % 256) ∧
      (encodeStep (4093, 5)
          { window := fun _ => 32, lookahead := fun _ => 65, windowHead := 0,
            uncodedHead := 0, input := [], len := 4,
            bw := { out := [], bitBuffer := 0, bitCount := 0 } }).windowHead =
        (0 + 1) % WINDOW_SIZE ∧
      (encodeStep (4093, 5)
          { window := fun _ => 32, lookahead := fun _ => 65, windowHead := 0,
            uncodedHead := 0, input := [], len := 4,
            bw := { out := [], bitBuffer := 0, bitCount := 0 } }).uncodedHead =
        (0 + 1) % MAX_CODED) ∧
    (MAX_UNCODED < min (4093, 5).2
        ({ window := fun _ => 32, lookahead := fun _ => 65, windowHead := 0,
           uncodedHead := 0, input := [], len := 4,
           bw := { out := [], bitBuffer := 0, bitCount := 0 } } : EncState).len →
      wbits (encodeStep (4093, 5)
          { window := fun _ => 32, lookahead := fun _ => 65, windowHead := 0,
            uncodedHead := 0, input := [], len := 4,
            bw := { out := [], bitBuffer := 0, bitCount := 0 } }).bw =
        wbits { out := [], bitBuffer := 0, bitCount := 0 } ++
          false :: (byteBits 4093 ++ bitsOfNat 4 (4093 / 256) ++
            bitsOfNat 4 (min 5 4 - (MAX_UNCODED + 1))) ∧
      (encodeStep (4093, 5)
          { window := fun _ => 32, lookahead := fun _ => 65, windowHead := 0,
            uncodedHead := 0, input := [], len := 4,
            bw := { out := [], bitBuffer := 0, bitCount := 0 } }).windowHead =
        (0 + min 5 4) % WINDOW_SIZE ∧
      (encodeStep (4093, 5)
          { window := fun _ => 32, lookahead := fun _ => 65, windowHead := 0,
            uncodedHead := 0, input := [], len := 4,
            bw := { out := [], bitBuffer := 0, bitCount := 0 } }).uncodedHead =
        (0 + min 5 4) % MAX_CODED) :=
  C7_encoder_iteration (4093, 5)
    { window := fun _ => 32, lookahead := fun _ => 65, windowHead := 0,
      uncodedHead := 0, input := [], len := 4,
      bw := { out := [], bitBuffer := 0, bitCount := 0 } } (by decide) (by decide)

/-- C10: with buffered bits present, a successful BitFilePutChar writes and
returns the assembled byte — the `bitCount` valid buffered bits in the
high-order positions followed by the high `8 - bitCount` bits of `c`, not
`c` itself — keeps the low bits of `c` in the buffer, and leaves `bitCount`
unchanged; with an empty buffer it writes and returns `c`. -/
theorem C10_putchar_assembles (c : Nat) (st : BitWriter) (hc : c < 256)
    (h8 : st.bitCount < 8) :
    (st.bitCount ≠ 0 →
      (BitFilePutChar c st).1 =
        st.bitBuffer % 2 ^ st.bitCount * 2 ^ (8 - st.bitCount) + c / 2 ^ st.bitCount ∧
      (BitFilePutChar c st).2.out = st.out ++ [(BitFilePutChar c st).1] ∧
      (BitFilePutChar c st).2.bitBuffer % 2 ^ st.bitCount = c % 2 ^ st.bitCount ∧
      (BitFilePutChar c st).2.bitCount = st.bitCount) ∧
    (st.bitCount = 0 → BitFilePutChar c st = (c, { st with out := st.out ++ [c] })) := by
  constructor
  · intro hk
    have htmp := putChar_tmp c st.bitBuffer st.bitCount hc h8
    unfold BitFilePutChar
    rw [if_neg hk]
    refine ⟨?_, ?_, ?_, ?_⟩ <;> simp [Nat.mod_eq_of_lt hc, htmp]
  · intro hk
    unfold BitFilePutChar
    rw [if_pos hk]
    simp [Nat.mod_eq_of_lt hc]

/-- C10 witness: byte 0xA5 through a stream buffering the three bits 110
(bitBuffer 6, bitCount 3): the written byte is 0xD4 = 6·32 + 0xA5 >> 3, the
buffer keeps the low three bits of 0xA5, and the count stays 3. -/
theorem C10_putchar_assembles_witness :
    ((({ out := [], bitBuffer := 6, bitCount := 3 } : BitWriter)).bitCount ≠ 0 →
      (BitFilePutChar 165 { out := [], bitBuffer := 6, bitCount := 3 }).1 =
        6 % 2 ^ 3 * 2 ^ (8 - 3) + 165 / 2 ^ 3 ∧
      (BitFilePutChar 165 { out := [], bitBuffer := 6, bitCount := 3 }).2.out =
        [] ++ [(BitFilePutChar 165 { out := [], bitBuffer := 6, bitCount := 3 }).1] ∧
      (BitFilePutChar 165 { out := [], bitBuffer := 6, bitCount := 3 }).2.bitBuffer % 2 ^ 3 =
        165 % 2 ^ 3 ∧
      (BitFilePutChar 165 { out := [], bitBuffer := 6, bitCount := 3 }).2.bitCount = 3) ∧
    ((({ out := [], bitBuffer := 6, bitCount := 3 } : BitWriter)).bitCount = 0 →
      BitFilePutChar 165 { out := [], bitBuffer := 6, bitCount := 3 } =
        (165, { out := [] ++ [165], bitBuffer := 6, bitCount := 3 })) :=
  C10_putchar_assembles 165 { out := [], bitBuffer := 6, bitCount := 3 }
    (by decide) (by decide)
